import Mathlib

/-!
Shallow embedding of the thermal-heatmap-generator repository
(`bezier.py` and `thermal_heatmap_generator.py`).

Modelling conventions:
* `numpy` float arrays become functions `Fin h → Fin w → ℚ` (shape `(height, width)`,
  indexed `[row, column] = [y, x]`), and real arithmetic is modelled by exact
  rational arithmetic.
* The transcendental primitives used by the code (`np.cos`, `np.sin`, `np.sqrt`,
  `np.arctan2`, `np.arctan`, `np.pi`) are bundled in a structure `NumEnv` of
  abstract rational-valued stand-ins; theorems quantify over every environment.
* `scipy.ndimage.gaussian_filter` is an external collaborator; each call site
  receives it as an explicit function argument (`blur`), with the properties a
  Gaussian filter enjoys (maps zero to zero, preserves non-negativity) taken as
  hypotheses where needed.
* `np.random` draws become explicit input streams (one value per draw).
* Python's silent slice clipping (negative indices wrap, over-long slices clip)
  is modelled exactly by `sliceIndex`.
-/

abbrev Pt := ℚ × ℚ

abbrev Mat (h w : ℕ) := Fin h → Fin w → ℚ

abbrev MatN (h w : ℕ) := Fin h → Fin w → ℕ

/-- Abstract stand-ins for the transcendental numeric primitives used by the
source (`np.cos`, `np.sin`, `np.sqrt`, `np.arctan2`, `np.arctan`, `np.pi`). -/
structure NumEnv where
  cos : ℚ → ℚ
  sin : ℚ → ℚ
  sqrt : ℚ → ℚ
  atan2 : ℚ → ℚ → ℚ
  arctan : ℚ → ℚ
  pi : ℚ

/-- Maximum of a list, with a default for the empty list (numpy's `.max()`
errors on an empty array; all uses in the pipeline are on nonempty arrays). -/
def foldMax {α : Type} [LinearOrder α] (dflt : α) : List α → α
  | [] => dflt
  | x :: xs => xs.foldl max x

/-- All entries of a matrix, row-major. -/
def entriesList {α : Type} {h w : ℕ} (A : Fin h → Fin w → α) : List α :=
  (List.finRange h).flatMap fun i => (List.finRange w).map (A i)

/-- `A.max()` for a rational matrix. -/
def matMax {h w : ℕ} (A : Mat h w) : ℚ :=
  foldMax 0 (entriesList A)

/-- `A.max()` for the final integer heatmap. -/
def matMaxN {h w : ℕ} (A : MatN h w) : ℕ :=
  foldMax 0 (entriesList A)

/-- Python `int(q)`: truncation toward zero. -/
def pyInt (q : ℚ) : ℤ := q.num.tdiv q.den

/-- `np.uint8` conversion of a float: truncate toward zero, wrap mod 256. -/
def toUint8 (q : ℚ) : ℕ := ((pyInt q) % 256).toNat

/-- `np.clip(q, lo, hi)`. -/
def npClip (lo hi q : ℚ) : ℚ := min (max q lo) hi

/-! ### bezier.py -/

/-- `bernstein = lambda n, k, t: binom(n, k) * t**k * (1.0 - t) ** (n - k)` -/
def bernsteinWeight (n k : ℕ) (t : ℚ) : ℚ :=
  (n.choose k : ℚ) * t ^ k * (1 - t) ^ (n - k)

/-- `np.linspace(0, 1, num)` (for `num = 1` numpy yields `[0.]`, matching
rational division by zero). -/
def linspace01 (num : ℕ) : List ℚ :=
  (List.range num).map fun j => (Nat.cast j : ℚ) / ((num : ℚ) - 1)

/-- One parameter value of the Bernstein-weighted sum in `bezier`:
`curve(t) = Σ_i bernstein(N-1, i, t) * points[i]`. -/
def bezierPoint (cps : List Pt) (t : ℚ) : Pt :=
  cps.enum.foldl
    (fun acc ip =>
      (acc.1 + bernsteinWeight (cps.length - 1) ip.1 t * ip.2.1,
       acc.2 + bernsteinWeight (cps.length - 1) ip.1 t * ip.2.2))
    ((0 : ℚ), (0 : ℚ))

/-- `bezier(points, num)`: sample the Bernstein-weighted curve at `num`
evenly spaced parameters in `[0, 1]`. -/
def bezier (cps : List Pt) (num : ℕ) : List Pt :=
  (linspace01 num).map (bezierPoint cps)

/-- The four control points of `Segment(p1, p2, angle1, angle2, r=rfac)`:
`p[0] = p1`, `p[3] = p2`, and with `d` the Euclidean distance of the endpoints
and `r = rfac * d`, `p[1] = p1 + r*(cos angle1, sin angle1)`,
`p[2] = p2 + r*(cos (angle2+pi), sin (angle2+pi))`. -/
def segmentControl (E : NumEnv) (p1 p2 : Pt) (angle1 angle2 rfac : ℚ) : List Pt :=
  [p1,
   (p1.1 + rfac * E.sqrt ((p2.1 - p1.1) ^ 2 + (p2.2 - p1.2) ^ 2) * E.cos angle1,
    p1.2 + rfac * E.sqrt ((p2.1 - p1.1) ^ 2 + (p2.2 - p1.2) ^ 2) * E.sin angle1),
   (p2.1 + rfac * E.sqrt ((p2.1 - p1.1) ^ 2 + (p2.2 - p1.2) ^ 2) * E.cos (angle2 + E.pi),
    p2.2 + rfac * E.sqrt ((p2.1 - p1.1) ^ 2 + (p2.2 - p1.2) ^ 2) * E.sin (angle2 + E.pi)),
   p2]

/-- The dense sample `Segment(...).curve` (the constructor ends by computing
`bezier(self.p, self.numpoints)`). -/
def segmentCurve (E : NumEnv) (p1 p2 : Pt) (angle1 angle2 rfac : ℚ) (numpoints : ℕ) : List Pt :=
  bezier (segmentControl E p1 p2 angle1 angle2 rfac) numpoints

/-- Consecutive pairs `(l[i], l[i+1])`, the iteration pattern of
`for i in range(len(points) - 1)` in `get_curve`. -/
def consecutivePairs {α : Type} : List α → List (α × α)
  | x :: y :: rest => (x, y) :: consecutivePairs (y :: rest)
  | _ => []

/-- `get_curve(points, r=rfac)` (the concatenated curve; `numpoints` defaults
to 100 in `Segment`): one `Segment` per consecutive pair of augmented points
`(x, y, angle)`, curves concatenated. -/
def get_curve (E : NumEnv) (pts : List (Pt × ℚ)) (rfac : ℚ) : List Pt :=
  ((consecutivePairs pts).map fun pr =>
    segmentCurve E pr.1.1 pr.2.1 pr.1.2 pr.2.2 rfac 100).flatten

/-- Centroid `np.mean(p, axis=0)`. -/
def centroid (l : List Pt) : Pt :=
  ((l.map Prod.fst).sum / (l.length : ℚ), (l.map Prod.snd).sum / (l.length : ℚ))

/-- Stable insertion keyed by a rational sort key (ascending). `np.argsort` is
an unspecified comparison sort; we model it by a stable structural sort. -/
def insertByKey {α : Type} (key : α → ℚ) (x : α) : List α → List α
  | [] => [x]
  | y :: ys => if key x < key y then x :: y :: ys else y :: insertByKey key x ys

/-- Sort ascending by key. -/
def sortByKey {α : Type} (key : α → ℚ) : List α → List α
  | [] => []
  | x :: xs => insertByKey key x (sortByKey key xs)

/-- `ccw_sort(p)`: sort points by `arctan2(dx, dy)` of their offset from the
centroid (note the source's argument order: x-component first). -/
def ccw_sort (E : NumEnv) (l : List Pt) : List Pt :=
  sortByKey (fun p => E.atan2 (p.1 - (centroid l).1) (p.2 - (centroid l).2)) l

/-- `np.diff(l, axis=0)`: consecutive differences. -/
def diffs (l : List Pt) : List Pt :=
  (l.zip l.tail).map fun pq => (pq.2.1 - pq.1.1, pq.2.2 - pq.1.2)

/-- `np.roll(l, 1)`: rotate the last element to the front. -/
def rollOne (l : List ℚ) : List ℚ :=
  match l.getLast? with
  | none => []
  | some x => x :: l.dropLast

/-- In `get_bezier_curve`: the ccw-sorted input with its first point appended
again (`a = np.append(a, np.atleast_2d(a[0, :]), axis=0)`). -/
def closedPts (E : NumEnv) (a : List Pt) : List Pt :=
  ccw_sort E a ++ (ccw_sort E a).take 1

/-- In `get_bezier_curve`: the blended tangent-angle sequence, with the first
blended angle wrapped onto the end (`ang = np.append(ang, [ang[0]])`). -/
def loopAngles (E : NumEnv) (a : List Pt) (edgy : ℚ) : List ℚ :=
  let p := E.arctan edgy / E.pi + 1 / 2
  let d := diffs (closedPts E a)
  let ang0 := (d.map fun v => E.atan2 v.2 v.1).map fun t => if 0 ≤ t then t else t + 2 * E.pi
  let ang2 := rollOne ang0
  let angB := (ang0.zip ang2).map fun uv =>
    p * uv.1 + (1 - p) * uv.2 + (if E.pi < |uv.2 - uv.1| then E.pi else 0)
  angB ++ angB.take 1

/-- In `get_bezier_curve`: the augmented point array
`a = np.append(a, np.atleast_2d(ang).T, axis=1)`. -/
def augPts (E : NumEnv) (a : List Pt) (edgy : ℚ) : List (Pt × ℚ) :=
  (closedPts E a).zip (loopAngles E a edgy)

/-- The concatenated closed curve produced inside `get_bezier_curve`
(`s, c = get_curve(a, r=rad)`). -/
def bezierLoop (E : NumEnv) (a : List Pt) (rad edgy : ℚ) : List Pt :=
  get_curve E (augPts E a edgy) rad

/-- `get_bezier_curve(a, rad=0.2, edgy=0)`: returns `x, y, a`
(the curve's coordinate lists and the augmented point array). -/
def get_bezier_curve (E : NumEnv) (a : List Pt) (rad edgy : ℚ) :
    List ℚ × List ℚ × List (Pt × ℚ) :=
  ((bezierLoop E a rad edgy).map Prod.fst,
   (bezierLoop E a rad edgy).map Prod.snd,
   augPts E a edgy)

/-- `mindst = mindst or 0.7 / n`: Python truthiness makes both `None` and
`0.0` fall back to the default. -/
def resolveMindst (n : ℕ) (mindst : Option ℚ) : ℚ :=
  match mindst with
  | none => 7 / 10 / (n : ℚ)
  | some q => if q = 0 then 7 / 10 / (n : ℚ) else q

/-- `a * scale` on an `(n, 2)` array. -/
def scalePts (scale : ℚ) (l : List Pt) : List Pt :=
  l.map fun p => (p.1 * scale, p.2 * scale)

/-- `np.sqrt(np.sum(np.diff(ccw_sort(a), axis=0) ** 2, axis=1))` before
sorting is applied to `a` -- the consecutive Euclidean distances used by
`get_random_points` (as seen through the abstract `sqrt`). -/
def consecDists (E : NumEnv) (l : List Pt) : List ℚ :=
  (diffs l).map fun v => E.sqrt (v.1 ^ 2 + v.2 ^ 2)

/-- The bounded resample loop of `get_random_points`, with the resolved
minimum distance `m` fixed (the source re-resolves `mindst or 0.7/n` at every
recursive call, which is idempotent: see `resolveMindst_idem`), and a
structural fuel counter.  Fuel runs out only at `rec >= 200`, where the
accept condition `rec >= 200` already holds, so the fuel-0 branch returns
exactly what the source returns there. -/
def grpGo (E : NumEnv) (stream : ℕ → List Pt) (scale m : ℚ) : ℕ → ℕ → List Pt
  | 0, rec => scalePts scale (stream rec)
  | fuel + 1, rec =>
    if ((consecDists E (ccw_sort E (stream rec))).all
        fun x => decide (m ≤ x)) = true ∨ 200 ≤ rec then
      scalePts scale (stream rec)
    else
      grpGo E stream scale m fuel (rec + 1)

/-- `get_random_points(n, scale, mindst, rec)`: the draw of `np.random.rand(n, 2)`
at recursion depth `rec` is `stream rec`.  Accept and scale once all
consecutive post-ccw-sort distances reach the minimum or `rec >= 200`,
else resample with the resolved minimum distance. -/
def get_random_points (E : NumEnv) (stream : ℕ → List Pt) (n : ℕ) (scale : ℚ)
    (mindst : Option ℚ) (rec : ℕ) : List Pt :=
  grpGo E stream scale (resolveMindst n mindst) (201 - rec) rec

/-! ### thermal_heatmap_generator.py -/

/-- Normalize a Python slice bound for a dimension of length `len`
(negative indices count from the end; everything is clamped to `[0, len]`). -/
def sliceIndex (len : ℕ) (i : ℤ) : ℕ :=
  if i < 0 then (i + len).toNat else min i.toNat len

/-- The zero buffer with the square
`[y - size//2 : y + size//2 + 1, x - size//2 : x + size//2 + 1]` (Python slice
semantics) set to `intensity` -- the buffer built inside `generate_heat_source`
before blurring. -/
def stampRegion (h w : ℕ) (x y : ℤ) (size : ℕ) (intensity : ℚ) : Mat h w :=
  fun i j =>
    if sliceIndex h (y - (size / 2 : ℕ)) ≤ (i : ℕ) ∧
       (i : ℕ) < sliceIndex h (y + (size / 2 : ℕ) + 1) ∧
       sliceIndex w (x - (size / 2 : ℕ)) ≤ (j : ℕ) ∧
       (j : ℕ) < sliceIndex w (x + (size / 2 : ℕ) + 1) then intensity else 0

/-- `generate_heat_source(heatmap, x, y, intensity, size, spread_sigma)`:
allocates `np.zeros_like(heatmap)` (the argument only supplies the shape,
which here lives in the type), stamps the square, and returns the Gaussian
blur of the stamp (`blur` stands for `gaussian_filter(., sigma=spread_sigma)`). -/
def generate_heat_source {h w : ℕ} (blur : Mat h w → Mat h w) (heatmap : Mat h w)
    (x y : ℤ) (intensity : ℚ) (size : ℕ) : Mat h w :=
  blur (stampRegion h w x y size intensity)

/-- One pixel write `edges_map[yi, xi] = edge_intensity`. -/
def setPixel {h w : ℕ} (M : Mat h w) (yi xi : ℤ) (v : ℚ) : Mat h w :=
  fun i j => if (i : ℤ) = yi ∧ (j : ℤ) = xi then v else M i j

/-- The inner loop of `add_random_edges`: truncate each curve point to
integers and write `edge_intensity` when both coordinates are in bounds. -/
def rasterizeCurve {h w : ℕ} (M : Mat h w) (curve : List Pt) (v : ℚ) : Mat h w :=
  curve.foldl
    (fun acc pt =>
      if 0 ≤ pyInt pt.1 ∧ pyInt pt.1 < (w : ℤ) ∧ 0 ≤ pyInt pt.2 ∧ pyInt pt.2 < (h : ℤ) then
        setPixel acc (pyInt pt.2) (pyInt pt.1) v
      else acc)
    M

/-- The point set sampled by iteration `k` of `add_random_edges`:
`get_random_points(n=num_points, scale=heatmap.shape[0])` -- the scale is the
canvas height `h` (`shape[0]` of an `(h, w)` buffer). -/
def edgeSampledPoints (E : NumEnv) (stream : ℕ → ℕ → List Pt) (h num_points : ℕ)
    (k : ℕ) : List Pt :=
  get_random_points E (stream k) num_points (h : ℚ) none 0

/-- `add_random_edges(heatmap, num_edges, edge_intensity, num_points)`:
fresh zero buffer; per edge, sample points, fit the closed Bezier curve with
defaults (`rad=0.2`, `edgy=0`), rasterize its sample points.  The `heatmap`
argument only supplies the shape.  `stream k` is the draw stream of edge `k`. -/
def add_random_edges {h w : ℕ} (E : NumEnv) (stream : ℕ → ℕ → List Pt)
    (heatmap : Mat h w) (num_edges : ℤ) (edge_intensity : ℚ) (num_points : ℕ) : Mat h w :=
  (List.range num_edges.toNat).foldl
    (fun em k =>
      rasterizeCurve em (bezierLoop E (edgeSampledPoints E stream h num_points k) (1 / 5) 0)
        edge_intensity)
    0

/-- Modelled from the spec: section 4.6 EdgeRasterizer exactly as claim C5
states it, with the point sampler invoked with scale equal to the canvas
WIDTH `w`.  A pixel holds `edge_intensity` when some sample point of some
edge's closed curve truncates onto it, else 0. -/
def rasterize_edges_claimW (E : NumEnv) (stream : ℕ → ℕ → List Pt) (h w : ℕ)
    (num_edges : ℤ) (edge_intensity : ℚ) (num_points : ℕ) : Mat h w :=
  fun i j =>
    if ((List.range num_edges.toNat).any fun k =>
        (bezierLoop E (get_random_points E (stream k) num_points (w : ℚ) none 0) (1 / 5) 0).any
          fun pt => decide (pyInt pt.1 = (j : ℤ) ∧ pyInt pt.2 = (i : ℤ))) = true then
      edge_intensity else 0

/-- Modelled from the spec: section 4.6 EdgeRasterizer with the sampler scale
amended to the canvas HEIGHT `h` (`shape[0]`).  A pixel holds
`edge_intensity` when some sample point of some edge's closed curve truncates
onto it, else 0. -/
def rasterize_edges_specH (E : NumEnv) (stream : ℕ → ℕ → List Pt) (h w : ℕ)
    (num_edges : ℤ) (edge_intensity : ℚ) (num_points : ℕ) : Mat h w :=
  fun i j =>
    if ((List.range num_edges.toNat).any fun k =>
        (bezierLoop E (get_random_points E (stream k) num_points (h : ℚ) none 0) (1 / 5) 0).any
          fun pt => decide (pyInt pt.1 = (j : ℤ) ∧ pyInt pt.2 = (i : ℤ))) = true then
      edge_intensity else 0

/-- `if A.max() != 0: A = A / A.max()` -/
def normalizeMat {h w : ℕ} (A : Mat h w) : Mat h w :=
  if matMax A = 0 then A else fun i j => A i j / matMax A

/-- The heat-source accumulation loop of `generate_thermal_heatmap`:
`heatmap += generate_heat_source(heatmap, x, y, intensity, spread_sigma=source_sigma)`
with `x = xs k`, `y = ys k`, `intensity = ints k` the random draws of
iteration `k` (size defaults to 5). -/
def sourcesAccum {h w : ℕ} (blurS : Mat h w → Mat h w) (xs ys : ℕ → ℤ)
    (ints : ℕ → ℚ) (num_sources : ℤ) : Mat h w :=
  (List.range num_sources.toNat).foldl
    (fun acc k => acc + generate_heat_source blurS acc (xs k) (ys k) (ints k) 5)
    0

/-- The combined buffer of `generate_thermal_heatmap` right before the final
rescale: sum of the individually normalized source and edge buffers
(`blurE` stands for `gaussian_filter(., sigma=edge_sigma)`). -/
def combinedBuffer {h w : ℕ} (E : NumEnv) (blurS blurE : Mat h w → Mat h w)
    (xs ys : ℕ → ℤ) (ints : ℕ → ℚ) (edgeStream : ℕ → ℕ → List Pt)
    (num_sources num_edges : ℤ) : Mat h w :=
  normalizeMat (sourcesAccum blurS xs ys ints num_sources) +
    normalizeMat (blurE (add_random_edges E edgeStream
      (sourcesAccum blurS xs ys ints num_sources) num_edges 128 3))

/-- The final stage of `generate_thermal_heatmap`: conditional rescale of the
combined buffer to `[0, 255]`, clip, and `astype(np.uint8)`. -/
def finalQuant {h w : ℕ} (M : Mat h w) : MatN h w :=
  fun i j =>
    toUint8 (npClip 0 255
      (if matMax M = 0 then M i j else M i j / matMax M * 255))

/-- `generate_thermal_heatmap(width, height, num_sources, num_edges,
edge_sigma, source_sigma)`.  The sigmas act only through the two blur
functions; the random draws are the streams `xs`, `ys`, `ints`, `edgeStream`. -/
def generate_thermal_heatmap (E : NumEnv) (width height : ℕ)
    (num_sources num_edges : ℤ)
    (blurS blurE : Mat height width → Mat height width)
    (xs ys : ℕ → ℤ) (ints : ℕ → ℚ) (edgeStream : ℕ → ℕ → List Pt) :
    MatN height width :=
  finalQuant (combinedBuffer E blurS blurE xs ys ints edgeStream num_sources num_edges)

/-- A concrete numeric environment for witnesses: `sqrt` is the identity
(so squared distances feed the distance check directly), the other
primitives are constantly zero. -/
def sqEnv : NumEnv :=
  { cos := fun _ => 0, sin := fun _ => 0, sqrt := fun q => q,
    atan2 := fun _ _ => 0, arctan := fun _ => 0, pi := 0 }

/-- A concrete draw stream for witnesses: every draw yields the same three
unit-square points, whose pairwise squared distances all reach `0.7/3`. -/
def wStream : ℕ → List Pt := fun _ => [(0, 0), (1 / 2, 0), (0, 1 / 2)]

/-- The same witness stream, indexed per edge and per retry. -/
def wStream2 : ℕ → ℕ → List Pt := fun _ => wStream

/-! ### Lemmas: list maxima and matrix entries -/

theorem le_foldlMax_init {α : Type} [LinearOrder α] (xs : List α) (a : α) :
    a ≤ xs.foldl max a := by
  induction xs generalizing a with
  | nil => exact le_refl a
  | cons x xs ih => exact le_trans (le_max_left a x) (ih (max a x))

theorem le_foldlMax_of_mem {α : Type} [LinearOrder α] {xs : List α} {x : α} (a : α)
    (hx : x ∈ xs) : x ≤ xs.foldl max a := by
  induction xs generalizing a with
  | nil => cases hx
  | cons y ys ih =>
    rcases List.mem_cons.mp hx with rfl | hy
    · exact le_trans (le_max_right a x) (le_foldlMax_init ys (max a x))
    · exact ih (max a y) hy

theorem foldlMax_le {α : Type} [LinearOrder α] {xs : List α} {a b : α}
    (ha : a ≤ b) (h : ∀ x ∈ xs, x ≤ b) : xs.foldl max a ≤ b := by
  induction xs generalizing a with
  | nil => exact ha
  | cons x xs ih =>
    exact ih (max_le ha (h x (List.mem_cons_self x xs)))
      fun y hy => h y (List.mem_cons_of_mem x hy)

theorem foldlMax_mem_or {α : Type} [LinearOrder α] (xs : List α) (a : α) :
    xs.foldl max a = a ∨ xs.foldl max a ∈ xs := by
  induction xs generalizing a with
  | nil => exact Or.inl rfl
  | cons x xs ih =>
    rcases ih (max a x) with h | h
    · rcases max_cases a x with ⟨he, _⟩ | ⟨he, _⟩
      · exact Or.inl (h.trans he)
      · exact Or.inr (List.mem_cons.mpr (Or.inl (h.trans he)))
    · exact Or.inr (List.mem_cons_of_mem x h)

theorem le_foldMax_of_mem {α : Type} [LinearOrder α] {l : List α} {x : α} (dflt : α)
    (hx : x ∈ l) : x ≤ foldMax dflt l := by
  cases l with
  | nil => cases hx
  | cons y ys =>
    rcases List.mem_cons.mp hx with rfl | hy
    · exact le_foldlMax_init ys x
    · exact le_foldlMax_of_mem y hy

theorem foldMax_le {α : Type} [LinearOrder α] {l : List α} {b : α} (dflt : α)
    (hd : dflt ≤ b) (h : ∀ x ∈ l, x ≤ b) : foldMax dflt l ≤ b := by
  cases l with
  | nil => exact hd
  | cons y ys =>
    exact foldlMax_le (h y (List.mem_cons_self y ys))
      fun x hx => h x (List.mem_cons_of_mem y hx)

theorem foldMax_mem_of_ne_nil {α : Type} [LinearOrder α] {l : List α} (dflt : α)
    (hl : l ≠ []) : foldMax dflt l ∈ l := by
  cases l with
  | nil => exact absurd rfl hl
  | cons y ys =>
    rcases foldlMax_mem_or ys y with h | h
    · show ys.foldl max y ∈ y :: ys
      rw [h]
      exact List.mem_cons_self y ys
    · exact List.mem_cons_of_mem y h

theorem foldMax_eq_dflt_of_all_eq {α : Type} [LinearOrder α] {l : List α} {dflt : α}
    (h : ∀ x ∈ l, x = dflt) : foldMax dflt l = dflt := by
  cases l with
  | nil => rfl
  | cons y ys =>
    exact h _ (foldMax_mem_of_ne_nil (l := y :: ys) dflt (by simp))

theorem mem_entriesList {α : Type} {h w : ℕ} (A : Fin h → Fin w → α) (i : Fin h) (j : Fin w) :
    A i j ∈ entriesList A := by
  unfold entriesList
  exact List.mem_flatMap.mpr ⟨i, List.mem_finRange i,
    List.mem_map.mpr ⟨j, List.mem_finRange j, rfl⟩⟩

theorem of_mem_entriesList {α : Type} {h w : ℕ} {A : Fin h → Fin w → α} {x : α}
    (hx : x ∈ entriesList A) : ∃ i j, x = A i j := by
  unfold entriesList at hx
  rcases List.mem_flatMap.mp hx with ⟨i, _, hi⟩
  rcases List.mem_map.mp hi with ⟨j, _, hj⟩
  exact ⟨i, j, hj.symm⟩

theorem entriesList_ne_nil {α : Type} {h w : ℕ} (A : Fin h → Fin w → α)
    (hh : 0 < h) (hw : 0 < w) : entriesList A ≠ [] := by
  intro hnil
  have := mem_entriesList A ⟨0, hh⟩ ⟨0, hw⟩
  rw [hnil] at this
  cases this

theorem entry_le_matMax {h w : ℕ} (A : Mat h w) (i : Fin h) (j : Fin w) :
    A i j ≤ matMax A :=
  le_foldMax_of_mem 0 (mem_entriesList A i j)

theorem matMax_nonneg {h w : ℕ} {A : Mat h w} (hA : ∀ i j, 0 ≤ A i j) :
    0 ≤ matMax A := by
  unfold matMax
  cases hE : entriesList A with
  | nil => exact le_refl 0
  | cons y ys =>
    have hy : y ∈ entriesList A := by
      rw [hE]; exact List.mem_cons_self y ys
    rcases of_mem_entriesList hy with ⟨i, j, hij⟩
    show 0 ≤ ys.foldl max y
    exact le_trans (hij ▸ hA i j) (le_foldlMax_init ys y)

theorem matMax_exists_entry {h w : ℕ} (A : Mat h w) (hh : 0 < h) (hw : 0 < w) :
    ∃ i j, matMax A = A i j := by
  have hmem := foldMax_mem_of_ne_nil (0 : ℚ) (entriesList_ne_nil A hh hw)
  exact of_mem_entriesList hmem

theorem matMax_eq_zero_of_all_zero {h w : ℕ} {A : Mat h w} (hA : ∀ i j, A i j = 0) :
    matMax A = 0 :=
  foldMax_eq_dflt_of_all_eq fun x hx => by
    rcases of_mem_entriesList hx with ⟨i, j, rfl⟩
    exact hA i j

theorem matMaxN_eq_of {h w : ℕ} {A : MatN h w} {b : ℕ} (i : Fin h) (j : Fin w)
    (hij : A i j = b) (hle : ∀ i' j', A i' j' ≤ b) : matMaxN A = b := by
  refine le_antisymm ?_ ?_
  · refine foldMax_le 0 (Nat.zero_le b) fun x hx => ?_
    rcases of_mem_entriesList hx with ⟨i', j', rfl⟩
    exact hle i' j'
  · exact hij ▸ le_foldMax_of_mem 0 (mem_entriesList A i j)

/-! ### Lemmas: truncation, quantization, clipping -/

theorem pyInt_eq_floor_of_nonneg {q : ℚ} (hq : 0 ≤ q) : pyInt q = ⌊q⌋ := by
  unfold pyInt
  rw [Int.tdiv_eq_ediv (Rat.num_nonneg.mpr hq) (Int.ofNat_nonneg q.den)]
  exact (Rat.floor_def).symm

theorem toUint8_eq_floor_toNat {q : ℚ} (h0 : 0 ≤ q) (h255 : q ≤ 255) :
    toUint8 q = (⌊q⌋).toNat := by
  unfold toUint8
  rw [pyInt_eq_floor_of_nonneg h0]
  have hlo : (0 : ℤ) ≤ ⌊q⌋ := Int.floor_nonneg.mpr h0
  have hhi : ⌊q⌋ < 256 := by
    have : ⌊q⌋ ≤ ⌊(255 : ℚ)⌋ := Int.floor_le_floor h255
    have h255' : ⌊(255 : ℚ)⌋ = 255 := by norm_num
    omega
  rw [Int.emod_eq_of_lt hlo hhi]

theorem toUint8_le_255 {q : ℚ} (h0 : 0 ≤ q) (h255 : q ≤ 255) : toUint8 q ≤ 255 := by
  rw [toUint8_eq_floor_toNat h0 h255]
  have : ⌊q⌋ ≤ ⌊(255 : ℚ)⌋ := Int.floor_le_floor h255
  have h255' : ⌊(255 : ℚ)⌋ = 255 := by norm_num
  omega

theorem toUint8_255 : toUint8 255 = 255 := by
  rw [toUint8_eq_floor_toNat (by norm_num) (le_refl _)]
  have h255' : ⌊(255 : ℚ)⌋ = 255 := by norm_num
  rw [h255']
  rfl

theorem toUint8_zero : toUint8 0 = 0 := by
  rw [toUint8_eq_floor_toNat (le_refl _) (by norm_num)]
  norm_num

theorem npClip_eq_self {q : ℚ} (h0 : 0 ≤ q) (h255 : q ≤ 255) : npClip 0 255 q = q := by
  unfold npClip
  rw [max_eq_left h0]
  exact min_eq_left h255

/-! ### Lemmas: stamping and non-negativity of the buffers -/

theorem stampRegion_nonneg {h w : ℕ} {x y : ℤ} {size : ℕ} {intensity : ℚ}
    (hint : 0 ≤ intensity) : ∀ i j, 0 ≤ stampRegion h w x y size intensity i j := by
  intro i j
  unfold stampRegion
  split
  · exact hint
  · exact le_refl 0

theorem stampRegion_oob {h w : ℕ} {x y : ℤ} {size : ℕ} (intensity : ℚ)
    (hy : (h : ℤ) ≤ y - (size / 2 : ℕ)) :
    stampRegion h w x y size intensity = 0 := by
  funext i j
  unfold stampRegion
  have h1 : sliceIndex h (y - (size / 2 : ℕ)) = h := by
    unfold sliceIndex
    rw [if_neg (by omega)]
    omega
  rw [h1]
  have : ¬((h : ℕ) ≤ (i : ℕ) ∧ (i : ℕ) < sliceIndex h (y + (size / 2 : ℕ) + 1) ∧
      sliceIndex w (x - (size / 2 : ℕ)) ≤ (j : ℕ) ∧
      (j : ℕ) < sliceIndex w (x + (size / 2 : ℕ) + 1)) := by
    intro ⟨hle, _, _, _⟩
    exact absurd (lt_of_lt_of_le i.isLt hle) (lt_irrefl _)
  rw [if_neg this]
  rfl

theorem generate_heat_source_nonneg {h w : ℕ} {blur : Mat h w → Mat h w}
    (hblur : ∀ A, (∀ i j, 0 ≤ A i j) → ∀ i j, 0 ≤ blur A i j)
    (hm : Mat h w) {x y : ℤ} {intensity : ℚ} (hint : 0 ≤ intensity) (size : ℕ) :
    ∀ i j, 0 ≤ generate_heat_source blur hm x y intensity size i j :=
  hblur _ (stampRegion_nonneg hint)

theorem foldl_sources_nonneg {h w : ℕ} {blurS : Mat h w → Mat h w}
    (hblur : ∀ A, (∀ i j, 0 ≤ A i j) → ∀ i j, 0 ≤ blurS A i j)
    {xs ys : ℕ → ℤ} {ints : ℕ → ℚ} (hints : ∀ k, 0 ≤ ints k)
    (l : List ℕ) (init : Mat h w) (hinit : ∀ i j, 0 ≤ init i j) :
    ∀ i j, 0 ≤ (l.foldl
      (fun acc k => acc + generate_heat_source blurS acc (xs k) (ys k) (ints k) 5)
      init) i j := by
  induction l generalizing init with
  | nil => exact hinit
  | cons k ks ih =>
    refine ih _ fun i j => ?_
    have h1 := hinit i j
    have h2 := generate_heat_source_nonneg hblur init (hints k) 5 (x := xs k) (y := ys k) i j
    calc (0 : ℚ) ≤ init i j + generate_heat_source blurS init (xs k) (ys k) (ints k) 5 i j :=
          add_nonneg h1 h2
    _ = _ := rfl

theorem sourcesAccum_nonneg {h w : ℕ} {blurS : Mat h w → Mat h w}
    (hblur : ∀ A, (∀ i j, 0 ≤ A i j) → ∀ i j, 0 ≤ blurS A i j)
    {xs ys : ℕ → ℤ} {ints : ℕ → ℚ} (hints : ∀ k, 0 ≤ ints k) (ns : ℤ) :
    ∀ i j, 0 ≤ sourcesAccum blurS xs ys ints ns i j :=
  foldl_sources_nonneg hblur hints _ 0 fun _ _ => le_refl 0

theorem setPixel_nonneg {h w : ℕ} {M : Mat h w} {yi xi : ℤ} {v : ℚ}
    (hM : ∀ i j, 0 ≤ M i j) (hv : 0 ≤ v) : ∀ i j, 0 ≤ setPixel M yi xi v i j := by
  intro i j
  unfold setPixel
  split
  · exact hv
  · exact hM i j

theorem rasterizeCurve_nonneg {h w : ℕ} {v : ℚ} (hv : 0 ≤ v) (curve : List Pt)
    (M : Mat h w) (hM : ∀ i j, 0 ≤ M i j) :
    ∀ i j, 0 ≤ rasterizeCurve M curve v i j := by
  induction curve generalizing M with
  | nil => exact hM
  | cons pt rest ih =>
    refine ih _ fun i j => ?_
    dsimp only
    split
    · exact setPixel_nonneg hM hv i j
    · exact hM i j

theorem add_random_edges_nonneg {h w : ℕ} (E : NumEnv) (stream : ℕ → ℕ → List Pt)
    (hm : Mat h w) (ne : ℤ) {v : ℚ} (hv : 0 ≤ v) (np : ℕ) :
    ∀ i j, 0 ≤ add_random_edges E stream hm ne v np i j := by
  unfold add_random_edges
  generalize List.range ne.toNat = l
  have : ∀ (l : List ℕ) (init : Mat h w), (∀ i j, 0 ≤ init i j) →
      ∀ i j, 0 ≤ (l.foldl (fun em k =>
        rasterizeCurve em (bezierLoop E (edgeSampledPoints E stream h np k) (1 / 5) 0) v)
        init) i j := by
    intro l
    induction l with
    | nil => exact fun init hinit => hinit
    | cons k ks ih =>
      intro init hinit
      exact ih _ (rasterizeCurve_nonneg hv _ init hinit)
  exact this l 0 fun _ _ => le_refl 0

theorem normalizeMat_nonneg {h w : ℕ} {A : Mat h w} (hA : ∀ i j, 0 ≤ A i j) :
    ∀ i j, 0 ≤ normalizeMat A i j := by
  intro i j
  unfold normalizeMat
  split
  · exact hA i j
  · next hne =>
    have hmax : 0 < matMax A := lt_of_le_of_ne (matMax_nonneg hA) (Ne.symm hne)
    exact div_nonneg (hA i j) (le_of_lt hmax)

/-! ### Lemmas: the all-zero pipeline and the final rescale -/

theorem matMax_zeroMat {h w : ℕ} : matMax (0 : Mat h w) = 0 :=
  matMax_eq_zero_of_all_zero fun _ _ => rfl

theorem normalizeMat_zeroMat {h w : ℕ} : normalizeMat (0 : Mat h w) = 0 := by
  unfold normalizeMat
  rw [if_pos matMax_zeroMat]

theorem sourcesAccum_of_toNat_zero {h w : ℕ} {blurS : Mat h w → Mat h w}
    {xs ys : ℕ → ℤ} {ints : ℕ → ℚ} {ns : ℤ} (hns : ns.toNat = 0) :
    sourcesAccum blurS xs ys ints ns = 0 := by
  unfold sourcesAccum
  rw [hns]
  rfl

theorem add_random_edges_of_toNat_zero {h w : ℕ} (E : NumEnv)
    (stream : ℕ → ℕ → List Pt) (hm : Mat h w) {ne : ℤ} (v : ℚ) (np : ℕ)
    (hne : ne.toNat = 0) : add_random_edges E stream hm ne v np = 0 := by
  unfold add_random_edges
  rw [hne]
  rfl

theorem combinedBuffer_all_zero {h w : ℕ} (E : NumEnv)
    {blurS blurE : Mat h w → Mat h w} (xs ys : ℕ → ℤ) (ints : ℕ → ℚ)
    (es : ℕ → ℕ → List Pt) {ns ne : ℤ}
    (hns : ns.toNat = 0) (hne : ne.toNat = 0) (hbE : blurE 0 = 0) :
    combinedBuffer E blurS blurE xs ys ints es ns ne = 0 := by
  unfold combinedBuffer
  rw [sourcesAccum_of_toNat_zero hns, add_random_edges_of_toNat_zero E es _ _ _ hne,
    hbE, normalizeMat_zeroMat]
  exact add_zero 0

theorem npClip_bounds (q : ℚ) : 0 ≤ npClip 0 255 q ∧ npClip 0 255 q ≤ 255 := by
  unfold npClip
  constructor
  · exact le_min (le_max_right q 0) (by norm_num)
  · exact min_le_right _ _

theorem finalQuant_zeroMat {h w : ℕ} : finalQuant (0 : Mat h w) = fun _ _ => 0 := by
  funext i j
  unfold finalQuant
  rw [if_pos matMax_zeroMat]
  show toUint8 (npClip 0 255 0) = 0
  rw [npClip_eq_self (le_refl 0) (by norm_num)]
  exact toUint8_zero

theorem generate_all_zero (E : NumEnv) {width height : ℕ} {ns ne : ℤ}
    {blurS blurE : Mat height width → Mat height width}
    (xs ys : ℕ → ℤ) (ints : ℕ → ℚ) (es : ℕ → ℕ → List Pt)
    (hns : ns.toNat = 0) (hne : ne.toNat = 0) (hbE : blurE 0 = 0) :
    generate_thermal_heatmap E width height ns ne blurS blurE xs ys ints es =
      fun _ _ => 0 := by
  unfold generate_thermal_heatmap
  rw [combinedBuffer_all_zero E xs ys ints es hns hne hbE]
  exact finalQuant_zeroMat

/-! ### Claim C1 -/

/-- C1: whenever the combined (source + edge) buffer right before the final
rescale is not entirely zero, the maximum element of the returned heatmap is
exactly 255.  The blur stand-ins are assumed to preserve non-negativity and
the source intensities to be non-negative, both true of
`scipy.ndimage.gaussian_filter` and `np.random.uniform(200, 255)`. -/
theorem normalization_ceiling (E : NumEnv) {width height : ℕ} (ns ne : ℤ)
    {blurS blurE : Mat height width → Mat height width}
    (xs ys : ℕ → ℤ) (ints : ℕ → ℚ) (es : ℕ → ℕ → List Pt)
    (hS : ∀ A, (∀ i j, 0 ≤ A i j) → ∀ i j, 0 ≤ blurS A i j)
    (hE : ∀ A, (∀ i j, 0 ≤ A i j) → ∀ i j, 0 ≤ blurE A i j)
    (hints : ∀ k, 0 ≤ ints k)
    (hcomb : combinedBuffer E blurS blurE xs ys ints es ns ne ≠ fun _ _ => 0) :
    matMaxN (generate_thermal_heatmap E width height ns ne blurS blurE xs ys ints es) =
      255 := by
  unfold generate_thermal_heatmap
  set M := combinedBuffer E blurS blurE xs ys ints es ns ne with hMdef
  have hMnn : ∀ i j, 0 ≤ M i j := by
    intro i j
    rw [hMdef]
    unfold combinedBuffer
    exact add_nonneg
      (normalizeMat_nonneg (sourcesAccum_nonneg hS hints ns) i j)
      (normalizeMat_nonneg (hE _ (add_random_edges_nonneg E es _ ne (by norm_num) 3)) i j)
  have hex : ∃ i j, M i j ≠ 0 := by
    by_contra hno
    push_neg at hno
    exact hcomb (funext fun i => funext fun j => hno i j)
  obtain ⟨i0, j0, hne0⟩ := hex
  have hcpos : 0 < matMax M :=
    lt_of_lt_of_le (lt_of_le_of_ne (hMnn i0 j0) (Ne.symm hne0)) (entry_le_matMax M i0 j0)
  obtain ⟨im, jm, hmax⟩ := matMax_exists_entry M i0.pos j0.pos
  have key : ∀ i j, finalQuant M i j = toUint8 (npClip 0 255 (M i j / matMax M * 255)) := by
    intro i j
    unfold finalQuant
    rw [if_neg (ne_of_gt hcpos)]
  have hle : ∀ i j, finalQuant M i j ≤ 255 := by
    intro i j
    rw [key i j]
    exact toUint8_le_255 (npClip_bounds _).1 (npClip_bounds _).2
  have hmaxentry : finalQuant M im jm = 255 := by
    rw [key im jm, ← hmax, div_self (ne_of_gt hcpos), one_mul]
    rw [npClip_eq_self (by norm_num) (le_refl _)]
    exact toUint8_255
  exact matMaxN_eq_of im jm hmaxentry hle

set_option maxRecDepth 4000 in
unseal Rat.add Rat.mul Rat.inv Rat.sub in
/-- Witness for C1: a 1-by-1 canvas, one source of intensity 200 stamped at
the origin, no edges, identity blurs; the combined buffer is nonzero and the
output maximum is exactly 255. -/
theorem normalization_ceiling_witness :
    (combinedBuffer (h := 1) (w := 1) sqEnv id id (fun _ => 0) (fun _ => 0)
        (fun _ => 200) (fun _ _ => []) 1 0 ≠ fun _ _ => 0) ∧
      matMaxN (generate_thermal_heatmap sqEnv 1 1 1 0 id id (fun _ => 0) (fun _ => 0)
        (fun _ => 200) (fun _ _ => [])) = 255 :=
  ⟨by decide,
   normalization_ceiling sqEnv 1 0 (fun _ => 0) (fun _ => 0) (fun _ => 200) (fun _ _ => [])
     (fun _ hA => hA) (fun _ hA => hA) (fun _ => by norm_num) (by decide)⟩

/-! ### Claim C2 -/

/-- C2: for positive width and height, `num_sources = 0` and `num_edges = 0`
yield the all-zero heatmap of the requested shape; every normalization step
is skipped on the all-zero buffers (in particular the combined buffer stays
zero), and the model is total, so no division error can occur.  The only
external fact used is that the edge blur maps the zero buffer to the zero
buffer, true of `gaussian_filter`. -/
theorem zero_sources_zero_output (E : NumEnv) {width height : ℕ}
    {blurS blurE : Mat height width → Mat height width}
    (xs ys : ℕ → ℤ) (ints : ℕ → ℚ) (es : ℕ → ℕ → List Pt)
    (hwidth : 0 < width) (hheight : 0 < height) (hbE : blurE 0 = 0) :
    generate_thermal_heatmap E width height 0 0 blurS blurE xs ys ints es =
        (fun _ _ => 0) ∧
      combinedBuffer E blurS blurE xs ys ints es 0 0 = 0 :=
  ⟨generate_all_zero E xs ys ints es rfl rfl hbE,
   combinedBuffer_all_zero E xs ys ints es rfl rfl hbE⟩

/-- Witness for C2 at a concrete 2-by-3 canvas with identity blur. -/
theorem zero_sources_zero_output_witness :
    ((0 : ℕ) < 3 ∧ (0 : ℕ) < 2 ∧ (id : Mat 2 3 → Mat 2 3) 0 = 0) ∧
      generate_thermal_heatmap sqEnv 3 2 0 0 id id (fun _ => 0) (fun _ => 0)
        (fun _ => 0) (fun _ _ => []) = fun _ _ => 0 :=
  ⟨⟨by decide, by decide, rfl⟩,
   (zero_sources_zero_output sqEnv (fun _ => 0) (fun _ => 0) (fun _ => 0) (fun _ _ => [])
     (by decide) (by decide) rfl).1⟩

/-! ### Claim C3 -/

set_option maxRecDepth 4000 in
unseal Rat.add Rat.mul Rat.inv Rat.sub in
/-- Counterexample to C3: the compositor performs no boundary validation.
The call with `num_sources = -1` and `num_edges = -1` on a 4-by-4 canvas is
not rejected; it runs to completion and returns the all-zero heatmap
(negative counts simply give zero loop iterations under Python `range`). -/
theorem no_validation_counterexample :
    generate_thermal_heatmap sqEnv 4 4 (-1) (-1) id id (fun _ => 0) (fun _ => 0)
      (fun _ => 0) (fun _ _ => []) = fun _ _ => 0 := by
  decide

/-- C3 (amended): no validation happens at the compositor boundary; for any
non-positive `num_sources` and `num_edges` (and positive dimensions, where
numpy's reductions are defined), the call completes normally and returns the
all-zero heatmap instead of raising. -/
theorem nonpositive_counts_all_zero (E : NumEnv) {width height : ℕ} {ns ne : ℤ}
    {blurS blurE : Mat height width → Mat height width}
    (xs ys : ℕ → ℤ) (ints : ℕ → ℚ) (es : ℕ → ℕ → List Pt)
    (hwidth : 0 < width) (hheight : 0 < height)
    (hns : ns ≤ 0) (hne : ne ≤ 0) (hbE : blurE 0 = 0) :
    generate_thermal_heatmap E width height ns ne blurS blurE xs ys ints es =
      fun _ _ => 0 :=
  generate_all_zero E xs ys ints es (Int.toNat_of_nonpos hns)
    (Int.toNat_of_nonpos hne) hbE

/-- Witness for the amended C3 at `num_sources = -3`, `num_edges = -7`. -/
theorem nonpositive_counts_all_zero_witness :
    ((0 : ℕ) < 5 ∧ (-3 : ℤ) ≤ 0 ∧ (-7 : ℤ) ≤ 0) ∧
      generate_thermal_heatmap sqEnv 5 5 (-3) (-7) id id (fun _ => 0) (fun _ => 0)
        (fun _ => 0) (fun _ _ => []) = fun _ _ => 0 :=
  ⟨⟨by decide, by decide, by decide⟩,
   nonpositive_counts_all_zero sqEnv (fun _ => 0) (fun _ => 0) (fun _ => 0) (fun _ _ => [])
     (by decide) (by decide) (by decide) (by decide) rfl⟩

/-! ### Claim C4 -/

set_option maxRecDepth 4000 in
unseal Rat.add Rat.mul Rat.inv Rat.sub in
/-- Counterexample to C4: a stamp region entirely outside a 4-by-4 canvas
(`x = y = 100`, `size = 5`) does not fail with an index error -- numpy slice
assignment silently clips the region to nothing, and the call returns the
blur of the untouched zero buffer (here, with identity blur, the zero
buffer), even on a nonzero input heatmap. -/
theorem stamp_oob_counterexample :
    generate_heat_source (h := 4) (w := 4) id (fun _ _ => 3) 100 100 9 5 =
      fun _ _ => 0 := by
  decide

/-- C4 (amended): an out-of-bounds stamp region is silently clipped by
Python slice semantics rather than raising; in particular, whenever the
requested rows lie entirely at or beyond the bottom edge
(`height <= y - size//2`), nothing is stamped and the call returns the blur
of the zero buffer. -/
theorem stamp_oob_clipped {h w : ℕ} (blur : Mat h w → Mat h w) (hm : Mat h w)
    {x y : ℤ} {size : ℕ} (intensity : ℚ) (hy : (h : ℤ) ≤ y - (size / 2 : ℕ)) :
    generate_heat_source blur hm x y intensity size = blur 0 := by
  unfold generate_heat_source
  rw [stampRegion_oob intensity hy]

/-- Witness for the amended C4: canvas 2-by-2, `y = 100`, `size = 5`. -/
theorem stamp_oob_clipped_witness :
    ((2 : ℤ) ≤ 100 - ((5 / 2 : ℕ) : ℤ)) ∧
      generate_heat_source (h := 2) (w := 2) id (fun _ _ => 7) 0 100 9 5 = id 0 :=
  ⟨by decide, stamp_oob_clipped id (fun _ _ => 7) 9 (by decide)⟩

/-! ### Claim C10 -/

theorem foldl_add_map_sum {h w : ℕ} (g : ℕ → Mat h w) (l : List ℕ) :
    ∀ init : Mat h w, l.foldl (fun acc k => acc + g k) init = init + (l.map g).sum := by
  induction l with
  | nil =>
    intro init
    rw [List.foldl_nil, List.map_nil, List.sum_nil, add_zero]
  | cons k ks ih =>
    intro init
    rw [List.foldl_cons, ih, List.map_cons, List.sum_cons, add_assoc]

/-- C10: `generate_heat_source` never reads the contents of the heatmap
argument (only its shape, which lives in the type), and consequently the
compositor's source-accumulation loop equals the elementwise sum of
independent single-source stamps over the zero canvas. -/
theorem heat_source_frame (h w : ℕ) (blurS : Mat h w → Mat h w)
    (hm1 hm2 : Mat h w) (x y : ℤ) (intensity : ℚ) (size : ℕ)
    (xs ys : ℕ → ℤ) (ints : ℕ → ℚ) (ns : ℤ) :
    generate_heat_source blurS hm1 x y intensity size =
        generate_heat_source blurS hm2 x y intensity size ∧
      sourcesAccum blurS xs ys ints ns =
        ((List.range ns.toNat).map fun k =>
          generate_heat_source blurS 0 (xs k) (ys k) (ints k) 5).sum := by
  refine ⟨rfl, ?_⟩
  show (List.range ns.toNat).foldl
      (fun acc k => acc + generate_heat_source blurS 0 (xs k) (ys k) (ints k) 5) 0 = _
  rw [foldl_add_map_sum (fun k => generate_heat_source blurS 0 (xs k) (ys k) (ints k) 5)]
  exact zero_add _

/-! ### Claim C9 -/

theorem resolveMindst_idem (n : ℕ) (mindst : Option ℚ) :
    resolveMindst n (some (resolveMindst n mindst)) = resolveMindst n mindst := by
  show (if resolveMindst n mindst = 0 then 7 / 10 / (n : ℚ) else resolveMindst n mindst) =
    resolveMindst n mindst
  by_cases h : resolveMindst n mindst = 0
  · rw [if_pos h, h]
    cases mindst with
    | none => exact h
    | some q =>
      by_cases hq : q = 0
      · have hd : resolveMindst n (some q) = 7 / 10 / (n : ℚ) := by
          show (if q = 0 then 7 / 10 / (n : ℚ) else q) = 7 / 10 / (n : ℚ)
          rw [if_pos hq]
        rw [← hd]
        exact h
      · have hd : resolveMindst n (some q) = q := by
          show (if q = 0 then 7 / 10 / (n : ℚ) else q) = q
          rw [if_neg hq]
        rw [hd] at h
        exact absurd h hq
  · rw [if_neg h]

/-- C9: passing `mindst = 0.0` explicitly behaves identically to omitting it:
Python's `mindst or 0.7 / n` treats `0.0` as falsy, so the default `0.7/n`
replaces it and the minimum-distance constraint cannot be disabled with 0. -/
theorem mindst_zero_is_default (E : NumEnv) (stream : ℕ → List Pt) (n : ℕ)
    (scale : ℚ) (rec : ℕ) :
    get_random_points E stream n scale (some 0) rec =
      get_random_points E stream n scale none rec := by
  unfold get_random_points
  rw [show resolveMindst n (some 0) = resolveMindst n none from by
    simp [resolveMindst]]

/-! ### Claim C8 -/

theorem grpGo_spec (E : NumEnv) (stream : ℕ → List Pt) (scale m : ℚ) :
    ∀ fuel rec, rec ≤ 200 → 200 ≤ rec + fuel →
      ∃ k, rec ≤ k ∧ k ≤ 200 ∧
        grpGo E stream scale m fuel rec = scalePts scale (stream k) ∧
        (((consecDists E (ccw_sort E (stream k))).all fun x => decide (m ≤ x)) = true ∨
          k = 200) := by
  intro fuel
  induction fuel with
  | zero =>
    intro rec h1 h2
    exact ⟨rec, le_refl rec, h1, rfl, Or.inr (by omega)⟩
  | succ fuel ih =>
    intro rec h1 h2
    by_cases hc : ((consecDists E (ccw_sort E (stream rec))).all
        fun x => decide (m ≤ x)) = true ∨ 200 ≤ rec
    · refine ⟨rec, le_refl rec, h1, ?_, ?_⟩
      · show (if _ ∨ _ then _ else _) = _
        rw [if_pos hc]
      · rcases hc with hok | h200
        · exact Or.inl hok
        · exact Or.inr (le_antisymm h1 h200)
    · have hrec : rec < 200 := by
        rcases not_or.mp hc with ⟨_, hn⟩
        omega
      obtain ⟨k, hk1, hk2, hk3, hk4⟩ := ih (rec + 1) (by omega) (by omega)
      refine ⟨k, by omega, hk2, ?_, hk4⟩
      show (if _ ∨ _ then _ else _) = _
      rw [if_neg hc]
      exact hk3

/-- C8: for every draw stream of `n` unit-square points (`n >= 2`), the
bounded resample recursion started at `rec = 0` accepts some draw `k` with at
most 200 retries (`k <= 200`); the result is that draw scaled by `scale`
(hence `n` points, each a unit-square point times the scale), and either all
consecutive post-ccw-sort distances of the accepted draw reach the resolved
minimum distance or the retry budget was exhausted (`k = 200`).  The model is
total: no error is raised in either case. -/
theorem sampler_bounded_retry (E : NumEnv) (stream : ℕ → List Pt) (n : ℕ)
    (scale : ℚ) (mindst : Option ℚ) (hn : 2 ≤ n)
    (hstream : ∀ k, (stream k).length = n ∧
      ∀ p ∈ stream k, 0 ≤ p.1 ∧ p.1 < 1 ∧ 0 ≤ p.2 ∧ p.2 < 1) :
    ∃ k, k ≤ 200 ∧
      get_random_points E stream n scale mindst 0 = scalePts scale (stream k) ∧
      (get_random_points E stream n scale mindst 0).length = n ∧
      (∀ p ∈ stream k, 0 ≤ p.1 ∧ p.1 < 1 ∧ 0 ≤ p.2 ∧ p.2 < 1) ∧
      (((consecDists E (ccw_sort E (stream k))).all
          fun x => decide (resolveMindst n mindst ≤ x)) = true ∨ k = 200) := by
  obtain ⟨k, _, hk2, hk3, hk4⟩ :=
    grpGo_spec E stream scale (resolveMindst n mindst) 201 0 (by omega) (by omega)
  have hbridge : get_random_points E stream n scale mindst 0 =
      grpGo E stream scale (resolveMindst n mindst) 201 0 := rfl
  refine ⟨k, hk2, ?_, ?_, (hstream k).2, hk4⟩
  · rw [hbridge, hk3]
  · rw [hbridge, hk3]
    unfold scalePts
    rw [List.length_map]
    exact (hstream k).1

theorem wStream_valid : ∀ k, (wStream k).length = 3 ∧
    ∀ p ∈ wStream k, 0 ≤ p.1 ∧ p.1 < 1 ∧ 0 ≤ p.2 ∧ p.2 < 1 := by
  intro k
  refine ⟨rfl, ?_⟩
  intro p hp
  have hcases : p = ((0 : ℚ), (0 : ℚ)) ∨ p = (1 / 2, 0) ∨ p = (0, 1 / 2) := by
    simpa [wStream] using hp
  rcases hcases with rfl | rfl | rfl <;> norm_num

/-- Witness for C8 at the constant stream of three unit-square points. -/
theorem sampler_bounded_retry_witness :
    ((2 ≤ 3) ∧ (∀ k, (wStream k).length = 3 ∧
        ∀ p ∈ wStream k, 0 ≤ p.1 ∧ p.1 < 1 ∧ 0 ≤ p.2 ∧ p.2 < 1)) ∧
      ∃ k, k ≤ 200 ∧
        get_random_points sqEnv wStream 3 1 none 0 = scalePts 1 (wStream k) ∧
        (get_random_points sqEnv wStream 3 1 none 0).length = 3 ∧
        (∀ p ∈ wStream k, 0 ≤ p.1 ∧ p.1 < 1 ∧ 0 ≤ p.2 ∧ p.2 < 1) ∧
        (((consecDists sqEnv (ccw_sort sqEnv (wStream k))).all
            fun x => decide (resolveMindst 3 none ≤ x)) = true ∨ k = 200) :=
  ⟨⟨by decide, wStream_valid⟩,
   sampler_bounded_retry sqEnv wStream 3 1 none (by decide) wStream_valid⟩

/-! ### Claim C7 -/

theorem bezierPoint_quad_zero (c0 c1 c2 c3 : Pt) : bezierPoint [c0, c1, c2, c3] 0 = c0 := by
  show (0 + bernsteinWeight 3 0 0 * c0.1 + bernsteinWeight 3 1 0 * c1.1 +
          bernsteinWeight 3 2 0 * c2.1 + bernsteinWeight 3 3 0 * c3.1,
        0 + bernsteinWeight 3 0 0 * c0.2 + bernsteinWeight 3 1 0 * c1.2 +
          bernsteinWeight 3 2 0 * c2.2 + bernsteinWeight 3 3 0 * c3.2) = c0
  unfold bernsteinWeight
  norm_num

theorem bezierPoint_quad_one (c0 c1 c2 c3 : Pt) : bezierPoint [c0, c1, c2, c3] 1 = c3 := by
  show (0 + bernsteinWeight 3 0 1 * c0.1 + bernsteinWeight 3 1 1 * c1.1 +
          bernsteinWeight 3 2 1 * c2.1 + bernsteinWeight 3 3 1 * c3.1,
        0 + bernsteinWeight 3 0 1 * c0.2 + bernsteinWeight 3 1 1 * c1.2 +
          bernsteinWeight 3 2 1 * c2.2 + bernsteinWeight 3 3 1 * c3.2) = c3
  unfold bernsteinWeight
  norm_num

/-- C7: a Segment's four control points are `p1`, `p1 + r*d*(cos angle1, sin angle1)`,
`p2 + r*d*(cos (angle2+pi), sin (angle2+pi))`, `p2` (with `d` the Euclidean
distance of the endpoints), and the Bezier sample of these control points at
parameter 0 is exactly `p1` and at parameter 1 exactly `p2`. -/
theorem segment_endpoint_interp (E : NumEnv) (p1 p2 : Pt) (angle1 angle2 rfac : ℚ) :
    segmentControl E p1 p2 angle1 angle2 rfac =
        [p1,
         (p1.1 + rfac * E.sqrt ((p2.1 - p1.1) ^ 2 + (p2.2 - p1.2) ^ 2) * E.cos angle1,
          p1.2 + rfac * E.sqrt ((p2.1 - p1.1) ^ 2 + (p2.2 - p1.2) ^ 2) * E.sin angle1),
         (p2.1 + rfac * E.sqrt ((p2.1 - p1.1) ^ 2 + (p2.2 - p1.2) ^ 2) * E.cos (angle2 + E.pi),
          p2.2 + rfac * E.sqrt ((p2.1 - p1.1) ^ 2 + (p2.2 - p1.2) ^ 2) * E.sin (angle2 + E.pi)),
         p2] ∧
      bezierPoint (segmentControl E p1 p2 angle1 angle2 rfac) 0 = p1 ∧
      bezierPoint (segmentControl E p1 p2 angle1 angle2 rfac) 1 = p2 :=
  ⟨rfl, bezierPoint_quad_zero _ _ _ _, bezierPoint_quad_one _ _ _ _⟩

/-! ### Lemmas for the closed-curve property -/

theorem range100_head : (List.range 100).head? = some 0 := by
  rw [show (100 : ℕ) = 99 + 1 from rfl, List.range_succ_eq_map 99]
  rfl

theorem range100_getLast : (List.range 100).getLast? = some 99 := by
  rw [show (100 : ℕ) = 99 + 1 from rfl, List.range_succ]
  exact List.getLast?_append_of_ne_nil _ (by simp)

theorem linspace01_head : (linspace01 100).head? = some 0 := by
  unfold linspace01
  rw [List.head?_map, range100_head]
  show some ((Nat.cast 0 : ℚ) / ((100 : ℚ) - 1)) = some 0
  norm_num

theorem linspace01_getLast : (linspace01 100).getLast? = some 1 := by
  unfold linspace01
  rw [List.getLast?_map, range100_getLast]
  show some ((Nat.cast 99 : ℚ) / ((100 : ℚ) - 1)) = some 1
  norm_num

theorem segmentCurve_head (E : NumEnv) (p1 p2 : Pt) (a1 a2 rfac : ℚ) :
    (segmentCurve E p1 p2 a1 a2 rfac 100).head? = some p1 := by
  unfold segmentCurve bezier
  rw [List.head?_map, linspace01_head]
  show some (bezierPoint (segmentControl E p1 p2 a1 a2 rfac) 0) = some p1
  rw [show segmentControl E p1 p2 a1 a2 rfac = [p1,
      (p1.1 + rfac * E.sqrt ((p2.1 - p1.1) ^ 2 + (p2.2 - p1.2) ^ 2) * E.cos a1,
       p1.2 + rfac * E.sqrt ((p2.1 - p1.1) ^ 2 + (p2.2 - p1.2) ^ 2) * E.sin a1),
      (p2.1 + rfac * E.sqrt ((p2.1 - p1.1) ^ 2 + (p2.2 - p1.2) ^ 2) * E.cos (a2 + E.pi),
       p2.2 + rfac * E.sqrt ((p2.1 - p1.1) ^ 2 + (p2.2 - p1.2) ^ 2) * E.sin (a2 + E.pi)),
      p2] from rfl, bezierPoint_quad_zero]

theorem segmentCurve_getLast (E : NumEnv) (p1 p2 : Pt) (a1 a2 rfac : ℚ) :
    (segmentCurve E p1 p2 a1 a2 rfac 100).getLast? = some p2 := by
  unfold segmentCurve bezier
  rw [List.getLast?_map, linspace01_getLast]
  show some (bezierPoint (segmentControl E p1 p2 a1 a2 rfac) 1) = some p2
  rw [show segmentControl E p1 p2 a1 a2 rfac = [p1,
      (p1.1 + rfac * E.sqrt ((p2.1 - p1.1) ^ 2 + (p2.2 - p1.2) ^ 2) * E.cos a1,
       p1.2 + rfac * E.sqrt ((p2.1 - p1.1) ^ 2 + (p2.2 - p1.2) ^ 2) * E.sin a1),
      (p2.1 + rfac * E.sqrt ((p2.1 - p1.1) ^ 2 + (p2.2 - p1.2) ^ 2) * E.cos (a2 + E.pi),
       p2.2 + rfac * E.sqrt ((p2.1 - p1.1) ^ 2 + (p2.2 - p1.2) ^ 2) * E.sin (a2 + E.pi)),
      p2] from rfl, bezierPoint_quad_one]

theorem segmentCurve_ne_nil (E : NumEnv) (p1 p2 : Pt) (a1 a2 rfac : ℚ) :
    segmentCurve E p1 p2 a1 a2 rfac 100 ≠ [] := by
  intro hnil
  have := segmentCurve_head E p1 p2 a1 a2 rfac
  rw [hnil] at this
  cases this

theorem insertByKey_length {α : Type} (key : α → ℚ) (x : α) (l : List α) :
    (insertByKey key x l).length = l.length + 1 := by
  induction l with
  | nil => rfl
  | cons y ys ih =>
    unfold insertByKey
    split
    · rfl
    · show (insertByKey key x ys).length + 1 = ys.length + 1 + 1
      rw [ih]

theorem sortByKey_length {α : Type} (key : α → ℚ) (l : List α) :
    (sortByKey key l).length = l.length := by
  induction l with
  | nil => rfl
  | cons x xs ih =>
    show (insertByKey key x (sortByKey key xs)).length = xs.length + 1
    rw [insertByKey_length, ih]

theorem ccw_sort_length (E : NumEnv) (l : List Pt) :
    (ccw_sort E l).length = l.length :=
  sortByKey_length _ l

theorem diffs_length (l : List Pt) : (diffs l).length = l.length - 1 := by
  unfold diffs
  rw [List.length_map, List.length_zip, List.length_tail]
  omega

theorem rollOne_length (l : List ℚ) : (rollOne l).length = l.length := by
  unfold rollOne
  cases l with
  | nil => rfl
  | cons x xs =>
    have hne : (x :: xs) ≠ [] := by simp
    have hsome : ((x :: xs).getLast?).isSome := List.getLast?_isSome.mpr hne
    rcases hx : (x :: xs).getLast? with _ | y
    · rw [hx] at hsome
      simp at hsome
    · show (x :: xs).dropLast.length + 1 = xs.length + 1
      rw [List.length_dropLast]
      simp

theorem closedPts_length (E : NumEnv) (a : List Pt) (ha : a ≠ []) :
    (closedPts E a).length = (ccw_sort E a).length + 1 := by
  unfold closedPts
  rw [List.length_append, List.length_take]
  have : 1 ≤ (ccw_sort E a).length := by
    rw [ccw_sort_length]
    cases a with
    | nil => exact absurd rfl ha
    | cons x xs => simp
  omega

theorem loopAngles_length (E : NumEnv) (a : List Pt) (edgy : ℚ) (ha : a ≠ []) :
    (loopAngles E a edgy).length = (closedPts E a).length := by
  have h1 : 1 ≤ (ccw_sort E a).length := by
    rw [ccw_sort_length]
    cases a with
    | nil => exact absurd rfl ha
    | cons x xs => simp
  have hcp := closedPts_length E a ha
  unfold loopAngles
  simp only [List.length_append, List.length_take, List.length_map, List.length_zip,
    rollOne_length, diffs_length, hcp]
  omega

theorem consecutivePairs_head {α : Type} (x y : α) (l : List α) :
    (consecutivePairs (x :: y :: l)).head? = some (x, y) := rfl

theorem consecutivePairs_getLast {α : Type} (l : List α) :
    ∀ x y : α, ∃ z w, (consecutivePairs (x :: y :: l)).getLast? = some (z, w) ∧
      (y :: l).getLast? = some w := by
  induction l with
  | nil => exact fun x y => ⟨x, y, rfl, rfl⟩
  | cons u l' ih =>
    intro x y
    obtain ⟨z, w, hz, hw⟩ := ih y u
    refine ⟨z, w, ?_, ?_⟩
    · show ((x, y) :: consecutivePairs (y :: u :: l')).getLast? = some (z, w)
      have hcons : consecutivePairs (y :: u :: l') = (y, u) :: consecutivePairs (u :: l') := rfl
      rw [hcons]
      rw [List.getLast?_cons_cons]
      rw [← hcons]
      exact hz
    · rw [List.getLast?_cons_cons]
      exact hw

theorem flatten_head {α : Type} (L : List (List α)) (l : List α) (x : α)
    (hL : L.head? = some l) (hx : l.head? = some x) : L.flatten.head? = some x := by
  cases L with
  | nil => cases hL
  | cons l0 Ls =>
    have hl0 : l0 = l := by
      cases hL
      rfl
    subst hl0
    cases l0 with
    | nil => cases hx
    | cons a t =>
      show ((a :: t) ++ Ls.flatten).head? = some x
      rw [List.cons_append]
      exact hx

theorem flatten_getLast {α : Type} (L : List (List α)) (lst : List α) (x : α)
    (hne : ∀ l ∈ L, l ≠ []) (hL : L.getLast? = some lst) (hx : lst.getLast? = some x) :
    L.flatten.getLast? = some x := by
  induction L with
  | nil => cases hL
  | cons l0 Ls ih =>
    cases Ls with
    | nil =>
      have hl0 : l0 = lst := by
        cases hL
        rfl
      subst hl0
      show (l0 ++ [].flatten).getLast? = some x
      rw [List.flatten_nil, List.append_nil]
      exact hx
    | cons l1 Ls' =>
      have hL' : (l1 :: Ls').getLast? = some lst := by
        rw [← List.getLast?_cons_cons (a := l0)]
        exact hL
      have hrec := ih (fun l hl => hne l (List.mem_cons_of_mem l0 hl)) hL'
      show (l0 ++ (l1 :: Ls').flatten).getLast? = some x
      have hfne : (l1 :: Ls').flatten ≠ [] := by
        intro hnil
        rw [hnil] at hrec
        cases hrec
      rw [List.getLast?_append_of_ne_nil _ hfne]
      exact hrec

theorem bezierLoop_closed (E : NumEnv) (a : List Pt) (rad edgy : ℚ)
    (ha : 3 ≤ a.length) :
    ∃ q : Pt, (bezierLoop E a rad edgy).head? = some q ∧
      (bezierLoop E a rad edgy).getLast? = some q := by
  have hane : a ≠ [] := by
    intro hnil
    rw [hnil] at ha
    cases ha
  have hslen : 3 ≤ (ccw_sort E a).length := by
    rw [ccw_sort_length]
    exact ha
  obtain ⟨q, s1, hqs⟩ := List.exists_cons_of_ne_nil
    (show ccw_sort E a ≠ [] by
      intro hnil
      rw [hnil] at hslen
      cases hslen)
  have hcp : closedPts E a = q :: (s1 ++ [q]) := by
    unfold closedPts
    rw [hqs]
    rfl
  have hcphead : (closedPts E a).head? = some q := by
    rw [hcp]
    rfl
  have hcplast : (closedPts E a).getLast? = some q := by
    unfold closedPts
    rw [hqs]
    show ((q :: s1) ++ [q]).getLast? = some q
    exact List.getLast?_concat _
  have hlen : (closedPts E a).length = (loopAngles E a edgy).length :=
    (loopAngles_length E a edgy hane).symm
  have hmapfst : (augPts E a edgy).map Prod.fst = closedPts E a :=
    List.map_fst_zip _ _ (le_of_eq hlen)
  have haughead : (augPts E a edgy).head?.map Prod.fst = some q := by
    rw [← List.head?_map, hmapfst, hcphead]
  have hauglast : (augPts E a edgy).getLast?.map Prod.fst = some q := by
    rw [← List.getLast?_map, hmapfst, hcplast]
  have hauglen : 4 ≤ (augPts E a edgy).length := by
    unfold augPts
    rw [List.length_zip, ← hlen, closedPts_length E a hane]
    omega
  obtain ⟨A0, rest0, hA0⟩ := List.exists_cons_of_ne_nil
    (show augPts E a edgy ≠ [] by
      intro hnil
      rw [hnil] at hauglen
      cases hauglen)
  obtain ⟨A1, rest1, hA1⟩ := List.exists_cons_of_ne_nil
    (show rest0 ≠ [] by
      intro hnil
      rw [hA0, hnil] at hauglen
      simp at hauglen)
  have haug2 : augPts E a edgy = A0 :: A1 :: rest1 := by
    rw [hA0, hA1]
  have hA0q : A0.1 = q := by
    rw [haug2] at haughead
    cases haughead
    rfl
  obtain ⟨z, w, hzw, hwlast⟩ := consecutivePairs_getLast rest1 A0 A1
  have hwq : w.1 = q := by
    have : (augPts E a edgy).getLast? = some w := by
      rw [haug2, List.getLast?_cons_cons]
      exact hwlast
    rw [this] at hauglast
    cases hauglast
    rfl
  refine ⟨q, ?_, ?_⟩
  · show (get_curve E (augPts E a edgy) rad).head? = some q
    unfold get_curve
    refine flatten_head _ (segmentCurve E A0.1 A1.1 A0.2 A1.2 rad 100) q ?_ ?_
    · rw [haug2]
      rw [show consecutivePairs (A0 :: A1 :: rest1) =
        (A0, A1) :: consecutivePairs (A1 :: rest1) from rfl]
      rw [List.map_cons]
      rfl
    · rw [segmentCurve_head E A0.1 A1.1 A0.2 A1.2 rad, hA0q]
  · show (get_curve E (augPts E a edgy) rad).getLast? = some q
    unfold get_curve
    refine flatten_getLast _ (segmentCurve E z.1 w.1 z.2 w.2 rad 100) q ?_ ?_ ?_
    · intro l hl
      rcases List.mem_map.mp hl with ⟨pr, _, hpr⟩
      rw [← hpr]
      exact segmentCurve_ne_nil E pr.1.1 pr.2.1 pr.1.2 pr.2.2 rad
    · rw [haug2, List.getLast?_map, hzw]
      rfl
    · rw [segmentCurve_getLast E z.1 w.1 z.2 w.2 rad, hwq]

/-! ### Claim C6 -/

/-- C6: for every point set of size at least 3, the curve assembled by
`get_bezier_curve` is a closed loop: the coordinate lists it returns are
nonempty and the first sample point equals the last sample point (both
coordinates) -- exactly, in the rational model, for every interpretation of
the transcendental primitives.  The common value is the first ccw-sorted
point, which the assembly appends again at the end of the point sequence. -/
theorem closed_curve_loop (E : NumEnv) (a : List Pt) (rad edgy : ℚ)
    (ha : 3 ≤ a.length) :
    (get_bezier_curve E a rad edgy).1 ≠ [] ∧
      (get_bezier_curve E a rad edgy).1.head? =
        (get_bezier_curve E a rad edgy).1.getLast? ∧
      (get_bezier_curve E a rad edgy).2.1.head? =
        (get_bezier_curve E a rad edgy).2.1.getLast? := by
  obtain ⟨q, hh, hl⟩ := bezierLoop_closed E a rad edgy ha
  refine ⟨?_, ?_, ?_⟩
  · show (bezierLoop E a rad edgy).map Prod.fst ≠ []
    intro hnil
    rw [List.map_eq_nil_iff.mp hnil] at hh
    cases hh
  · show ((bezierLoop E a rad edgy).map Prod.fst).head? =
      ((bezierLoop E a rad edgy).map Prod.fst).getLast?
    rw [List.head?_map, List.getLast?_map, hh, hl]
  · show ((bezierLoop E a rad edgy).map Prod.snd).head? =
      ((bezierLoop E a rad edgy).map Prod.snd).getLast?
    rw [List.head?_map, List.getLast?_map, hh, hl]

/-- Witness for C6 at a concrete three-point set and the default radius and
edginess parameters. -/
theorem closed_curve_loop_witness :
    3 ≤ ([((0 : ℚ), (0 : ℚ)), (1, 0), (0, 1)] : List Pt).length ∧
      (get_bezier_curve sqEnv [(0, 0), (1, 0), (0, 1)] (1 / 5) 0).1.head? =
        (get_bezier_curve sqEnv [(0, 0), (1, 0), (0, 1)] (1 / 5) 0).1.getLast? :=
  ⟨by decide,
   (closed_curve_loop sqEnv [(0, 0), (1, 0), (0, 1)] (1 / 5) 0 (by decide)).2.1⟩

/-! ### Claim C5 -/

theorem rasterizeCurve_apply {h w : ℕ} (curve : List Pt) (M : Mat h w) (v : ℚ)
    (i : Fin h) (j : Fin w) :
    rasterizeCurve M curve v i j =
      if (curve.any fun pt => decide (pyInt pt.1 = (j : ℤ) ∧ pyInt pt.2 = (i : ℤ))) = true
      then v else M i j := by
  induction curve generalizing M with
  | nil =>
    show M i j = if (false = true) then v else M i j
    rw [if_neg (by simp)]
  | cons pt rest ih =>
    show rasterizeCurve
        (if 0 ≤ pyInt pt.1 ∧ pyInt pt.1 < (w : ℤ) ∧ 0 ≤ pyInt pt.2 ∧ pyInt pt.2 < (h : ℤ)
         then setPixel M (pyInt pt.2) (pyInt pt.1) v else M) rest v i j = _
    rw [ih]
    rw [List.any_cons]
    simp only [Bool.or_eq_true, decide_eq_true_eq]
    by_cases hB : (rest.any fun pt => decide (pyInt pt.1 = (j : ℤ) ∧ pyInt pt.2 = (i : ℤ))) = true
    · rw [if_pos hB, if_pos (Or.inr hB)]
    · rw [if_neg hB]
      by_cases hpt : pyInt pt.1 = (j : ℤ) ∧ pyInt pt.2 = (i : ℤ)
      · have hb : 0 ≤ pyInt pt.1 ∧ pyInt pt.1 < (w : ℤ) ∧ 0 ≤ pyInt pt.2 ∧ pyInt pt.2 < (h : ℤ) := by
          obtain ⟨h1, h2⟩ := hpt
          rw [h1, h2]
          refine ⟨Int.natCast_nonneg _, ?_, Int.natCast_nonneg _, ?_⟩
          · exact_mod_cast j.isLt
          · exact_mod_cast i.isLt
        rw [if_pos hb]
        show setPixel M (pyInt pt.2) (pyInt pt.1) v i j = _
        unfold setPixel
        rw [if_pos ⟨hpt.2.symm, hpt.1.symm⟩, if_pos (Or.inl hpt)]
      · have hnor : ¬((pyInt pt.1 = (j : ℤ) ∧ pyInt pt.2 = (i : ℤ)) ∨
            (rest.any fun pt => decide (pyInt pt.1 = (j : ℤ) ∧ pyInt pt.2 = (i : ℤ))) = true) := by
          intro hor
          rcases hor with hp | hB2
          · exact hpt hp
          · exact hB hB2
        rw [if_neg hnor]
        by_cases hbnd : 0 ≤ pyInt pt.1 ∧ pyInt pt.1 < (w : ℤ) ∧ 0 ≤ pyInt pt.2 ∧ pyInt pt.2 < (h : ℤ)
        · rw [if_pos hbnd]
          show setPixel M (pyInt pt.2) (pyInt pt.1) v i j = M i j
          unfold setPixel
          rw [if_neg]
          intro hc
          exact hpt ⟨hc.2.symm, hc.1.symm⟩
        · rw [if_neg hbnd]

theorem foldl_raster_apply {h w : ℕ} (E : NumEnv) (stream : ℕ → ℕ → List Pt)
    (v : ℚ) (np : ℕ) (i : Fin h) (j : Fin w) : ∀ n : ℕ,
    ((List.range n).foldl
      (fun em k =>
        rasterizeCurve em (bezierLoop E (edgeSampledPoints E stream h np k) (1 / 5) 0) v)
      (0 : Mat h w)) i j =
      if ((List.range n).any fun k =>
          (bezierLoop E (edgeSampledPoints E stream h np k) (1 / 5) 0).any
            fun pt => decide (pyInt pt.1 = (j : ℤ) ∧ pyInt pt.2 = (i : ℤ))) = true
      then v else 0 := by
  intro n
  induction n with
  | zero =>
    show (0 : Mat h w) i j = if (false = true) then v else 0
    rw [if_neg (by simp)]
    rfl
  | succ n ih =>
    rw [List.range_succ, List.foldl_append, List.any_append]
    show rasterizeCurve _ _ v i j = _
    rw [rasterizeCurve_apply, ih]
    rw [show (([n] : List ℕ).any fun k =>
        (bezierLoop E (edgeSampledPoints E stream h np k) (1 / 5) 0).any
          fun pt => decide (pyInt pt.1 = (j : ℤ) ∧ pyInt pt.2 = (i : ℤ))) =
        ((bezierLoop E (edgeSampledPoints E stream h np n) (1 / 5) 0).any
          fun pt => decide (pyInt pt.1 = (j : ℤ) ∧ pyInt pt.2 = (i : ℤ))) from by
      rw [List.any_cons, List.any_nil, Bool.or_false]]
    by_cases hn : ((bezierLoop E (edgeSampledPoints E stream h np n) (1 / 5) 0).any
        fun pt => decide (pyInt pt.1 = (j : ℤ) ∧ pyInt pt.2 = (i : ℤ))) = true
    · rw [if_pos hn, hn, Bool.or_true, if_pos rfl]
    · rw [if_neg hn, Bool.eq_false_iff.mpr hn, Bool.or_false]

/-- C5 (amended): `add_random_edges` coincides, on every input, with the
spec's EdgeRasterizer description amended to sample with scale equal to the
canvas HEIGHT (`heatmap.shape[0]`): each of the `num_edges` iterations
samples `num_points` points at scale `h`, fits the closed curve with default
radius and edginess, and a pixel holds `edge_intensity` exactly when some
curve sample point truncates onto it (later writes overwrite earlier ones,
so the written set is all that matters). -/
theorem edge_rasterizer_refines_spec {h w : ℕ} (E : NumEnv)
    (stream : ℕ → ℕ → List Pt) (hm : Mat h w) (ne : ℤ) (v : ℚ) (np : ℕ) :
    add_random_edges E stream hm ne v np = rasterize_edges_specH E stream h w ne v np := by
  funext i j
  show ((List.range ne.toNat).foldl
      (fun em k =>
        rasterizeCurve em (bezierLoop E (edgeSampledPoints E stream h np k) (1 / 5) 0) v)
      (0 : Mat h w)) i j = _
  rw [foldl_raster_apply E stream v np i j ne.toNat]
  rfl

set_option maxRecDepth 100000 in
unseal Rat.add Rat.mul Rat.inv Rat.sub in
/-- Counterexample to C5: on a canvas of height 1 and width 2, the edge
rasterizer does NOT behave as the claim states (sampler scale = canvas
width): the actual output differs from the spec description with scale `w`
at a concrete stream, because the source passes `heatmap.shape[0]` -- the
height -- as the scale. -/
theorem edge_scale_counterexample :
    add_random_edges (h := 1) (w := 2) sqEnv wStream2 (fun _ _ => 5) 1 128 3 ≠
      rasterize_edges_claimW sqEnv wStream2 1 2 1 128 3 := by
  decide
